import Mathlib

/-!
Shallow embedding of the complaint-phrase extraction pipeline of
src/app.py (lines 166-189) of the Quick_commerce_delivery_insights
repository, together with theorems settling the specification claims
about it.

The pipeline, in the source:

  negative_df = df[df["service_rating"] <= 2]
  def clean_text(text): return re.sub(r"[^a-z\s]", "", text.lower())
  neutral_phrases = {"fast delivery", "good service", "quick delivery",
                     "nice delivery", "fresh items"}
  counter = Counter()
  for review in negative_df["customer_feedback"].dropna():
      words = clean_text(review).split()
      for i in range(len(words) - 1):
          phrase = f"{words[i]} {words[i+1]}"
          if phrase not in neutral_phrases:
              counter[phrase] += 1
  bigram_df = (pd.DataFrame(counter.items(), ...)
               .sort_values("Frequency", ascending=False).head(10))

Strings are modelled as Lean strings (lists of Unicode characters),
counters as insertion-ordered association lists (Python dicts preserve
insertion order), and ratings as rationals.  The pandas sort is modelled
both by a concrete deterministic sort and by the relation "is a
count-descending permutation of the accumulated counter", because the
default sort kind of sort_values (quicksort) does not guarantee any
particular order among entries of equal count.
-/

namespace QuickCommerce

/-- Lowercase ASCII letters a-z, i.e. code points 97 to 122. -/
def isLetter (c : Char) : Bool :=
  decide (97 ≤ c.toNat ∧ c.toNat ≤ 122)

/-- Python str.lower, modelled on the ASCII range: uppercase ASCII letters
(code points 65 to 90) are mapped to the corresponding lowercase letters
and every other character is left unchanged.  (Full Unicode case-mapping
differs from this only at characters outside a-zA-Z, and in the pipeline
every character whose image is not a lowercase ASCII letter or
whitespace is deleted by the subsequent filter.) -/
def pyLower (c : Char) : Char :=
  if 65 ≤ c.toNat ∧ c.toNat ≤ 90 then Char.ofNat (c.toNat + 32) else c

/-- Whitespace as matched by the character class \s of Python regular
expressions over str (and by str.split with no argument): the ASCII
whitespace characters together with the Unicode space characters. -/
def pyIsSpace (c : Char) : Bool :=
  decide (c.toNat = 0x20 ∨ (0x09 ≤ c.toNat ∧ c.toNat ≤ 0x0d) ∨
    (0x1c ≤ c.toNat ∧ c.toNat ≤ 0x1f) ∨ c.toNat = 0x85 ∨ c.toNat = 0xa0 ∨
    c.toNat = 0x1680 ∨ (0x2000 ≤ c.toNat ∧ c.toNat ≤ 0x200a) ∨
    c.toNat = 0x2028 ∨ c.toNat = 0x2029 ∨ c.toNat = 0x202f ∨
    c.toNat = 0x205f ∨ c.toNat = 0x3000)

/-- Characters kept by the substitution re.sub(r"[^a-z\s]", "", -): the
lowercase ASCII letters and whitespace.  Every other character is
replaced by the empty string, i.e. deleted. -/
def keepChar (c : Char) : Bool :=
  isLetter c || pyIsSpace c

/-- Embedding of clean_text (src/app.py line 168-169): lowercase the
text, then delete every character that is not a lowercase ASCII letter
or whitespace. -/
def clean_text (s : String) : String :=
  ⟨(s.data.map pyLower).filter keepChar⟩

/-- Helper for pySplit: scan the character list, accumulating the
current (reversed) run of non-whitespace characters in acc and emitting
it when whitespace or the end of the string is reached. -/
def splitAux : List Char → List Char → List String
  | [], acc => if acc.isEmpty then [] else [⟨acc.reverse⟩]
  | c :: cs, acc =>
      if pyIsSpace c then
        (if acc.isEmpty then splitAux cs [] else ⟨acc.reverse⟩ :: splitAux cs [])
      else
        splitAux cs (c :: acc)

/-- Embedding of str.split() with no argument (src/app.py line 179):
split on runs of whitespace, discarding empty tokens. -/
def pySplit (s : String) : List String :=
  splitAux s.data []

/-- Tokens of one review, as computed at line 179 of the source:
clean_text(review).split(). -/
def wordsOf (s : String) : List String :=
  pySplit (clean_text s)

/-- Adjacent-pair phrases of a token list (src/app.py lines 180-181):
for i in range(len(words) - 1) the phrase words[i] + " " + words[i+1];
a sliding window of width 2 and stride 1. -/
def bigrams : List String → List String
  | a :: b :: rest => (a ++ " " ++ b) :: bigrams (b :: rest)
  | _ => []

/-- Embedding of neutral_phrases (src/app.py lines 171-174), the fixed
denylist of the program.  The source value is a Python set of strings;
it is modelled as the list of its (distinct) elements, with membership
by exact string equality. -/
def neutral_phrases : List String :=
  ["fast delivery", "good service", "quick delivery",
   "nice delivery", "fresh items"]

/-- One step counter[phrase] += 1 of the source on an insertion-ordered
association list: if the phrase is already a key its count is bumped in
place, otherwise the phrase is appended at the end with count 1 (Python
dicts, hence Counter, preserve insertion order of keys). -/
def bump : List (String × Nat) → String → List (String × Nat)
  | [], p => [(p, 1)]
  | (q, n) :: rest, p =>
      if q = p then (q, n + 1) :: rest else (q, n) :: bump rest p

/-- Inner loop of src/app.py lines 180-183 over one list of phrases:
each phrase that is not in the denylist is counted, in order. -/
def addPhrases (denylist : List String) (c : List (String × Nat)) :
    List String → List (String × Nat) :=
  List.foldl (fun c p => if p ∈ denylist then c else bump c p) c

/-- Processing of one review (src/app.py lines 179-183). -/
def addText (denylist : List String) (c : List (String × Nat)) (s : String) :
    List (String × Nat) :=
  addPhrases denylist c (bigrams (wordsOf s))

/-- Embedding of pandas Series.dropna on a column of optional strings
(src/app.py line 178): absent entries are skipped. -/
def dropna (xs : List (Option String)) : List String :=
  xs.filterMap id

/-- Accumulated counter after the loop of src/app.py lines 176-183,
starting from the fresh Counter() of line 176, with the denylist as a
parameter (the program instantiates it with neutral_phrases). -/
def accumulate (denylist : List String) (texts : List (Option String)) :
    List (String × Nat) :=
  (dropna texts).foldl (addText denylist) []

/-- Ordering used by the ranking step: count of the first entry at least
the count of the second, i.e. counts descending. -/
def countGE (a b : String × Nat) : Prop :=
  b.2 ≤ a.2

instance : DecidableRel countGE := fun a b => Nat.decLe b.2 a.2

instance : IsTotal (String × Nat) countGE :=
  ⟨fun a b => (Nat.le_total b.2 a.2).elim Or.inl Or.inr⟩

instance : IsTrans (String × Nat) countGE :=
  ⟨fun _ _ _ h₁ h₂ => Nat.le_trans h₂ h₁⟩

/-- Deterministic model of sort_values("Frequency", ascending=False)
(src/app.py line 187): some permutation of the counter entries ordered
by count descending.  The source uses the pandas default sort kind
(quicksort), which promises sortedness but no particular order among
entries of equal count; theorems that depend only on sortedness are
therefore stated against the relation SortedByCountDesc below, and this
concrete sort serves to produce witnesses. -/
def sortByCountDesc (l : List (String × Nat)) : List (String × Nat) :=
  List.insertionSort countGE l

/-- Embedding of bigram_df (src/app.py lines 185-189): the counter
entries, sorted by count descending, truncated to the first 10 rows by
DataFrame.head(10).  The rows are (Complaint Phrase, Frequency) pairs. -/
def bigram_df (texts : List (Option String)) : List (String × Nat) :=
  (sortByCountDesc (accumulate neutral_phrases texts)).take 10

/-- Modelled from the spec: the source hardcodes the denylist
(neutral_phrases) and the result bound (.head(10)); the standalone
component extract_top_phrases(texts, denylist, top_k) of the
specification, with its rule that top_k ≤ 0 yields an empty result, is
not present in src/.  Truncation to the first top_k entries is modelled
by List.take of the clamped bound, which returns the empty list for
every top_k ≤ 0. -/
def extract_top_phrases (texts : List (Option String))
    (denylist : List String) (top_k : Int) : List (String × Nat) :=
  (sortByCountDesc (accumulate denylist texts)).take top_k.toNat

/-- Relation characterising the output of the ranking-and-truncation
step for a result bound k, independently of how the sort orders entries
of equal count: the output is the first k entries of some
count-descending permutation of the accumulated counter. -/
def RankedOutput (denylist : List String) (texts : List (Option String))
    (k : Nat) (out : List (String × Nat)) : Prop :=
  ∃ l, List.Perm (accumulate denylist texts) l ∧ l.Pairwise countGE ∧
    out = l.take k

/-- Total number of occurrences of a phrase among the adjacent pairs of
all the (present) texts: the per-text occurrence counts, summed over the
whole input. -/
def occurrences (texts : List (Option String)) (p : String) : Nat :=
  ((dropna texts).map (fun s => (bigrams (wordsOf s)).count p)).sum

/-- Count stored for a phrase in an association-list counter, 0 when the
phrase is not a key. -/
def countOf : List (String × Nat) → String → Nat
  | [], _ => 0
  | (q, n) :: rest, p => if q = p then n else countOf rest p

/-- Record of the delivery dataset as it reaches the phrase pipeline:
load_data (src/app.py lines 16-45) coerces service_rating to a number
and drops rows where it is missing, so the rating is always present;
customer_feedback may be absent.  Other columns of the dataset do not
feed the pipeline and are not modelled. -/
structure OrderRecord where
  service_rating : ℚ
  customer_feedback : Option String

/-- Embedding of negative_df (src/app.py line 166): the records whose
service rating is at most 2, in order. -/
def negative_df (records : List OrderRecord) : List OrderRecord :=
  records.filter (fun r => decide (r.service_rating ≤ 2))

/-- Full pipeline from dataset records to the ranked table: select the
negative records, take their feedback column, and run bigram_df. -/
def pipelineFromRecords (records : List OrderRecord) : List (String × Nat) :=
  bigram_df ((negative_df records).map (fun r => r.customer_feedback))

/-- Model of the script state surrounding the loop: line 176 of the
source rebinds the name counter to a fresh Counter() before the loop, so
whatever value the name held before the statement is discarded; the
ranked table is then computed from the fresh counter only. -/
def scriptRun (_prevCounter : List (String × Nat))
    (texts : List (Option String)) : List (String × Nat) :=
  let counter : List (String × Nat) := []
  (sortByCountDesc ((dropna texts).foldl (addText neutral_phrases) counter)).take 10

/-! ### Elementary lemmas about the counter operations -/

theorem countOf_bump_self (c : List (String × Nat)) (p : String) :
    countOf (bump c p) p = countOf c p + 1 := by
  induction c with
  | nil => simp [bump, countOf]
  | cons x rest ih =>
      obtain ⟨q, n⟩ := x
      by_cases h : q = p
      · simp [bump, countOf, h]
      · simp [bump, countOf, h, ih]

theorem countOf_bump_of_ne {q p : String} (c : List (String × Nat))
    (h : q ≠ p) : countOf (bump c q) p = countOf c p := by
  induction c with
  | nil => simp [bump, countOf, h]
  | cons x rest ih =>
      obtain ⟨r, n⟩ := x
      by_cases hr : r = q
      · subst hr
        simp [bump, countOf, h]
      · by_cases hp : r = p <;> simp [bump, countOf, hr, hp, ih, Ne.symm h]

theorem bump_forall {P : String × Nat → Prop} {c : List (String × Nat)}
    (p : String) (hc : ∀ x ∈ c, P x) (h1 : P (p, 1))
    (hS : ∀ q n, P (q, n) → P (q, n + 1)) : ∀ x ∈ bump c p, P x := by
  induction c with
  | nil => simpa [bump] using h1
  | cons x rest ih =>
      obtain ⟨q, n⟩ := x
      by_cases h : q = p
      · intro y hy
        rw [bump, if_pos h] at hy
        rcases List.mem_cons.mp hy with hy | hy
        · exact hy ▸ hS q n (hc (q, n) (List.mem_cons_self _ _))
        · exact hc y (List.mem_cons_of_mem _ hy)
      · intro y hy
        rw [bump, if_neg h] at hy
        rcases List.mem_cons.mp hy with hy | hy
        · exact hy ▸ hc (q, n) (List.mem_cons_self _ _)
        · exact ih (fun x hx => hc x (List.mem_cons_of_mem _ hx)) y hy

theorem countOf_addPhrases (d : List String) (ps : List String) :
    ∀ (c : List (String × Nat)) (p : String),
      countOf (addPhrases d c ps) p =
        countOf c p + (if p ∈ d then 0 else ps.count p) := by
  induction ps with
  | nil => intro c p; simp [addPhrases]
  | cons q ps ih =>
      intro c p
      have hstep : addPhrases d c (q :: ps) =
          addPhrases d (if q ∈ d then c else bump c q) ps := by
        by_cases hq : q ∈ d <;> simp [addPhrases, hq]
      rw [hstep, ih]
      by_cases hq : q ∈ d
      · by_cases hp : p ∈ d
        · simp [hq, hp]
        · have hqp : q ≠ p := by intro h; subst h; exact hp hq
          have hqp' : ¬ (q == p) := by simpa using hqp
          simp [hq, hp, List.count_cons, hqp']
      · by_cases hp : p ∈ d
        · have hqp : q ≠ p := by intro h; subst h; exact hq hp
          simp [hq, hp, countOf_bump_of_ne c hqp]
        · by_cases hqp : q = p
          · subst hqp
            simp [hq, hp, countOf_bump_self, List.count_cons, Nat.add_comm,
              Nat.add_assoc, Nat.add_left_comm]
          · have hqp' : ¬ (q == p) := by simpa using hqp
            simp [hq, hp, countOf_bump_of_ne c hqp, List.count_cons, hqp']

theorem addPhrases_forall {P : String × Nat → Prop} {d : List String}
    (ps : List String) (h1 : ∀ p, p ∉ d → P (p, 1))
    (hS : ∀ q n, P (q, n) → P (q, n + 1)) :
    ∀ (c : List (String × Nat)), (∀ x ∈ c, P x) →
      ∀ x ∈ addPhrases d c ps, P x := by
  induction ps with
  | nil => intro c hc; simpa [addPhrases] using hc
  | cons q ps ih =>
      intro c hc
      have hstep : addPhrases d c (q :: ps) =
          addPhrases d (if q ∈ d then c else bump c q) ps := by
        by_cases hq : q ∈ d <;> simp [addPhrases, hq]
      rw [hstep]
      by_cases hq : q ∈ d
      · rw [if_pos hq]; exact ih c hc
      · rw [if_neg hq]
        exact ih _ (bump_forall q hc (h1 q hq) hS)

theorem countOf_foldl_addText (d : List String) (ts : List String) :
    ∀ (c : List (String × Nat)) (p : String),
      countOf (ts.foldl (addText d) c) p =
        countOf c p +
          (if p ∈ d then 0
           else (ts.map fun s => (bigrams (wordsOf s)).count p).sum) := by
  induction ts with
  | nil => intro c p; simp
  | cons s ts ih =>
      intro c p
      rw [List.foldl_cons, ih, addText, countOf_addPhrases]
      by_cases hp : p ∈ d <;> simp [hp, Nat.add_assoc]

theorem countOf_accumulate (d : List String) (texts : List (Option String))
    (p : String) :
    countOf (accumulate d texts) p =
      if p ∈ d then 0 else occurrences texts p := by
  rw [accumulate, countOf_foldl_addText, occurrences]
  simp [countOf]

theorem accumulate_entries (d : List String) (texts : List (Option String)) :
    ∀ x ∈ accumulate d texts, 1 ≤ x.2 ∧ x.1 ∉ d := by
  rw [accumulate]
  generalize dropna texts = ts
  have base : ∀ x ∈ ([] : List (String × Nat)), 1 ≤ x.2 ∧ x.1 ∉ d := by simp
  revert base
  generalize ([] : List (String × Nat)) = c
  induction ts generalizing c with
  | nil => intro base; simpa using base
  | cons s ts ih =>
      intro base
      rw [List.foldl_cons]
      exact ih _ (addPhrases_forall _ (fun p hp => ⟨Nat.le_refl 1, hp⟩)
        (fun q n h => ⟨Nat.le_succ_of_le h.1, h.2⟩) c base)

theorem length_bigrams : ∀ ts : List String,
    (bigrams ts).length = ts.length - 1
  | [] => rfl
  | [_] => rfl
  | a :: b :: rest => by
      show ((a ++ " " ++ b) :: bigrams (b :: rest)).length =
        (b :: rest).length + 1 - 1
      simp [length_bigrams (b :: rest)]

/-! ### Lemmas about normalization and splitting -/

theorem isLetter_not_space {c : Char} (h : isLetter c = true) :
    pyIsSpace c = false := by
  rw [isLetter, decide_eq_true_iff] at h
  rw [pyIsSpace]
  exact decide_eq_false (by omega)

theorem pyLower_of_letter {c : Char} (h : isLetter c = true) :
    pyLower c = c := by
  rw [isLetter, decide_eq_true_iff] at h
  rw [pyLower, if_neg]
  omega

theorem mem_clean_text {s : String} {c : Char} (h : c ∈ (clean_text s).data) :
    keepChar c = true := by
  have h' : c ∈ (s.data.map pyLower).filter keepChar := h
  exact List.of_mem_filter h'

theorem splitAux_forall (P : Char → Prop) :
    ∀ (l acc : List Char), (∀ c ∈ l, pyIsSpace c = false → P c) →
      (∀ c ∈ acc, P c ∧ pyIsSpace c = false) →
      ∀ t ∈ splitAux l acc,
        t.data ≠ [] ∧ ∀ c ∈ t.data, P c ∧ pyIsSpace c = false := by
  intro l
  induction l with
  | nil =>
      intro acc _ hacc t ht
      rw [splitAux] at ht
      by_cases ha : acc.isEmpty
      · rw [if_pos ha] at ht
        exact absurd ht (List.not_mem_nil t)
      · rw [if_neg ha] at ht
        rcases List.mem_cons.mp ht with rfl | h0
        · refine ⟨?_, ?_⟩
          · show acc.reverse ≠ []
            simpa [List.isEmpty_iff] using ha
          · intro c hc
            exact hacc c (List.mem_reverse.mp hc)
        · exact absurd h0 (List.not_mem_nil t)
  | cons c cs ih =>
      intro acc hl hacc t ht
      rw [splitAux] at ht
      by_cases hsp : pyIsSpace c = true
      · rw [if_pos hsp] at ht
        by_cases ha : acc.isEmpty
        · rw [if_pos ha] at ht
          exact ih [] (fun x hx => hl x (List.mem_cons_of_mem _ hx))
            (by simp) t ht
        · rw [if_neg ha] at ht
          rcases List.mem_cons.mp ht with rfl | h0
          · refine ⟨?_, ?_⟩
            · show acc.reverse ≠ []
              simpa [List.isEmpty_iff] using ha
            · intro x hx
              exact hacc x (List.mem_reverse.mp hx)
          · exact ih [] (fun x hx => hl x (List.mem_cons_of_mem _ hx))
              (by simp) t h0
      · rw [if_neg hsp] at ht
        refine ih (c :: acc) (fun x hx => hl x (List.mem_cons_of_mem _ hx))
          ?_ t ht
        intro x hx
        rcases List.mem_cons.mp hx with rfl | hx
        · have hcf : pyIsSpace x = false := by
            cases hb : pyIsSpace x
            · rfl
            · exact absurd hb hsp
          exact ⟨hl x (List.mem_cons_self _ _) hcf, hcf⟩
        · exact hacc x hx

theorem splitAux_of_nonspace :
    ∀ (l acc : List Char), (∀ c ∈ l, pyIsSpace c = false) →
      splitAux l acc =
        if (acc.reverse ++ l).isEmpty then [] else [⟨acc.reverse ++ l⟩] := by
  intro l
  induction l with
  | nil =>
      intro acc _
      rw [splitAux]
      cases acc with
      | nil => simp
      | cons a as => simp [List.isEmpty_iff]
  | cons c cs ih =>
      intro acc h
      have hc : pyIsSpace c = false := h c (List.mem_cons_self _ _)
      rw [splitAux, if_neg (by simp [hc]),
        ih (c :: acc) (fun x hx => h x (List.mem_cons_of_mem _ hx))]
      have harr : (c :: acc).reverse ++ cs = acc.reverse ++ (c :: cs) := by
        simp
      rw [harr]

theorem pySplit_of_letters (s : String) (hne : s.data ≠ [])
    (hl : ∀ c ∈ s.data, isLetter c = true) : pySplit s = [s] := by
  obtain ⟨l⟩ := s
  rw [pySplit, splitAux_of_nonspace l []
    (fun c hc => isLetter_not_space (hl c hc))]
  simp only [List.reverse_nil, List.nil_append]
  rw [if_neg (by simpa [List.isEmpty_iff] using hne)]

theorem clean_text_append (a b : String) :
    clean_text (a ++ b) = clean_text a ++ clean_text b := by
  apply String.ext
  show ((a ++ b).data.map pyLower).filter keepChar =
    ((a.data.map pyLower).filter keepChar) ++
      ((b.data.map pyLower).filter keepChar)
  rw [String.data_append, List.map_append, List.filter_append]

theorem clean_text_of_letters (s : String)
    (h : ∀ c ∈ s.data, isLetter c = true) : clean_text s = s := by
  apply String.ext
  obtain ⟨l⟩ := s
  show (l.map pyLower).filter keepChar = l
  induction l with
  | nil => rfl
  | cons c cs ih =>
      have hc : isLetter c = true := h c (List.mem_cons_self _ _)
      rw [List.map_cons, pyLower_of_letter hc, List.filter_cons,
        if_pos (by simp [keepChar, hc]),
        ih (fun x hx => h x (List.mem_cons_of_mem _ hx))]

theorem clean_text_singleton_drop {c : Char}
    (h : keepChar (pyLower c) = false) :
    clean_text (String.singleton c) = "" := by
  apply String.ext
  show ([c].map pyLower).filter keepChar = []
  simp [h]

/-! ### The ranking relation is realized by the concrete sort -/

theorem rankedOutput_take (d : List String) (texts : List (Option String))
    (k : Nat) :
    RankedOutput d texts k ((sortByCountDesc (accumulate d texts)).take k) :=
  ⟨sortByCountDesc (accumulate d texts),
   (List.perm_insertionSort countGE _).symm,
   List.sorted_insertionSort countGE _, rfl⟩

theorem rankedOutput_bigram_df (texts : List (Option String)) :
    RankedOutput neutral_phrases texts 10 (bigram_df texts) :=
  rankedOutput_take neutral_phrases texts 10

theorem rankedOutput_extract (texts : List (Option String))
    (d : List String) (k : Int) :
    RankedOutput d texts k.toNat (extract_top_phrases texts d k) :=
  rankedOutput_take d texts k.toNat

/-! ### Claim theorems -/

/-- C2: for every input, every ranked result (the first k rows of some
count-descending permutation of the accumulated counter; the program
fixes k = 10) has length at most k, counts non-increasing by position,
and no entry of count 0: every listed count is at least 1. -/
theorem claim_c2 (d : List String) (texts : List (Option String)) (k : Nat)
    (out : List (String × Nat)) (h : RankedOutput d texts k out) :
    out.length ≤ k ∧ out.Pairwise countGE ∧ ∀ e ∈ out, 1 ≤ e.2 := by
  obtain ⟨l, hperm, hsort, rfl⟩ := h
  refine ⟨List.length_take_le k l,
    List.Pairwise.sublist (List.take_sublist k l) hsort, ?_⟩
  intro e he
  exact (accumulate_entries d texts e
    (hperm.mem_iff.mpr (List.mem_of_mem_take he))).1

theorem claim_c2_witness :
    (bigram_df [some "late delivery again", some "late delivery always"]).length ≤ 10 ∧
    (bigram_df [some "late delivery again", some "late delivery always"]).Pairwise countGE ∧
    1 ≤ (("late delivery", 2) : String × Nat).2 :=
  ⟨(claim_c2 neutral_phrases _ 10 _ (rankedOutput_bigram_df _)).1,
   (claim_c2 neutral_phrases _ 10 _ (rankedOutput_bigram_df _)).2.1,
   (claim_c2 neutral_phrases
      [some "late delivery again", some "late delivery always"] 10 _
      (rankedOutput_bigram_df _)).2.2 ("late delivery", 2) (by decide)⟩

/-- C3: no phrase of any ranked result is in the denylist, and the
exclusion is by exact string match of the normalized two-word phrase:
the accumulated count of every phrase that is not itself a denylist
entry equals its total number of occurrences, so a phrase is never
excluded because it merely contains, or is contained in, a denylist
entry. -/
theorem claim_c3 (d : List String) (texts : List (Option String)) :
    (∀ k out, RankedOutput d texts k out → ∀ e ∈ out, e.1 ∉ d) ∧
    (∀ p, p ∉ d → countOf (accumulate d texts) p = occurrences texts p) := by
  constructor
  · rintro k out ⟨l, hperm, _, rfl⟩ e he
    exact (accumulate_entries d texts e
      (hperm.mem_iff.mpr (List.mem_of_mem_take he))).2
  · intro p hp
    rw [countOf_accumulate, if_neg hp]

theorem claim_c3_witness :
    (("super fast", 1) : String × Nat).1 ∉ ["fast delivery"] ∧
    countOf (accumulate ["fast delivery"] [some "super fast delivery guys"])
        "delivery guys" =
      occurrences [some "super fast delivery guys"] "delivery guys" :=
  ⟨(claim_c3 ["fast delivery"] [some "super fast delivery guys"]).1
      _ _ (rankedOutput_extract _ _ 10) ("super fast", 1) (by decide),
   (claim_c3 _ _).2 "delivery guys" (by decide)⟩

/-- C4: a text whose normalized form tokenizes to N tokens with N at
least 2 contributes exactly N - 1 adjacent-pair phrases before denylist
filtering (sliding window of width 2, stride 1), a text with 0 or 1
tokens contributes none, and counts are summed globally across all
input texts. -/
theorem claim_c4 :
    (∀ t : String, 2 ≤ (wordsOf t).length →
      (bigrams (wordsOf t)).length = (wordsOf t).length - 1) ∧
    (∀ t : String, (wordsOf t).length ≤ 1 → bigrams (wordsOf t) = []) ∧
    (∀ (d : List String) (texts : List (Option String)) (p : String),
      p ∉ d → countOf (accumulate d texts) p = occurrences texts p) := by
  refine ⟨fun t _ => length_bigrams _, ?_,
    fun d texts p hp => by rw [countOf_accumulate, if_neg hp]⟩
  intro t ht
  cases hw : wordsOf t with
  | nil => rfl
  | cons a tl =>
      cases tl with
      | nil => rfl
      | cons b rest =>
          rw [hw] at ht
          simp only [List.length_cons] at ht
          omega

theorem claim_c4_witness :
    (bigrams (wordsOf "late delivery again")).length =
      (wordsOf "late delivery again").length - 1 ∧
    bigrams (wordsOf "late") = [] ∧
    countOf (accumulate [] [some "x y x y"]) "x y" =
      occurrences [some "x y x y"] "x y" :=
  ⟨claim_c4.1 _ (by decide), claim_c4.2.1 _ (by decide),
   claim_c4.2.2 [] _ _ (by decide)⟩

/-- C5: normalization keeps only lowercase ASCII letters and whitespace
(digits, punctuation, emoji and accented letters are dropped, not
transliterated), tokenization splits on whitespace discarding empty
tokens (so every token is a nonempty all-letter string), and the text
of the concrete scenario yields exactly the tokens caf, wasnt,
delivered; lowercasing happens before the filter, as the uppercase
variant shows. -/
theorem claim_c5 :
    (∀ (s : String), ∀ c ∈ (clean_text s).data,
      isLetter c = true ∨ pyIsSpace c = true) ∧
    (∀ (s : String), ∀ t ∈ wordsOf s,
      t.data ≠ [] ∧ ∀ c ∈ t.data, isLetter c = true) ∧
    wordsOf "café wasn\x27t delivered!!" = ["caf", "wasnt", "delivered"] ∧
    clean_text "CAFÉ WASN\x27T DELIVERED!!" = "caf wasnt delivered" := by
  refine ⟨?_, ?_, by decide, by decide⟩
  · intro s c hc
    have h := mem_clean_text hc
    rwa [keepChar, Bool.or_eq_true] at h
  · intro s t ht
    have h := splitAux_forall (fun c => isLetter c = true)
      (clean_text s).data [] ?_ (by simp) t ht
    · exact ⟨h.1, fun c hc => (h.2 c hc).1⟩
    · intro c hc hsp
      have hk := mem_clean_text hc
      rw [keepChar, Bool.or_eq_true] at hk
      rcases hk with hk | hk
      · exact hk
      · rw [hsp] at hk
        exact absurd hk (by simp)

theorem claim_c5_witness :
    (isLetter 'c' = true ∨ pyIsSpace 'c' = true) ∧
    "caf".data ≠ [] ∧ isLetter 'f' = true :=
  ⟨claim_c5.1 "café wasn\x27t delivered!!" 'c' (by decide),
   (claim_c5.2.1 "café wasn\x27t delivered!!" "caf" (by decide)).1,
   (claim_c5.2.1 "café wasn\x27t delivered!!" "caf" (by decide)).2
     'f' (by decide)⟩

/-- C6: the extraction returns an empty result for every top_k at most
0 instead of raising, and the program instance is the spec component at
denylist neutral_phrases and top_k = 10.  Totality over any string
sequence holds by construction: every operation of the embedding is a
total function. -/
theorem claim_c6 :
    (∀ (texts : List (Option String)) (d : List String) (k : Int),
      k ≤ 0 → extract_top_phrases texts d k = []) ∧
    (∀ texts : List (Option String),
      extract_top_phrases texts neutral_phrases 10 = bigram_df texts) := by
  constructor
  · intro texts d k hk
    rw [extract_top_phrases, Int.toNat_of_nonpos hk]
    rfl
  · intro texts
    rfl

theorem claim_c6_witness :
    extract_top_phrases [some "late delivery again"] [] (-3) = [] :=
  claim_c6.1 _ _ _ (by decide)

/-- Helper for C7: a run of the accumulation loop over texts all of
which tokenize to nothing leaves the counter unchanged. -/
theorem foldl_addText_of_tokenless (d : List String) :
    ∀ ts : List String, (∀ s ∈ ts, wordsOf s = []) →
      ∀ c, ts.foldl (addText d) c = c := by
  intro ts
  induction ts with
  | nil => intro _ _; rfl
  | cons s ts ih =>
      intro h c
      rw [List.foldl_cons]
      have hs : addText d c s = c := by
        rw [addText, h s (List.mem_cons_self _ _)]
        rfl
      rw [hs, ih (fun x hx => h x (List.mem_cons_of_mem _ hx))]

/-- C7: absent entries are skipped silently (removing a null entry never
changes the result), the empty input yields an empty result, and an
input all of whose present texts tokenize to nothing (empty or
whitespace-only after normalization) yields an empty result for every
top_k. -/
theorem claim_c7 :
    (∀ (d : List String) (k : Int), extract_top_phrases [] d k = []) ∧
    (∀ (pre post : List (Option String)) (d : List String) (k : Int),
      extract_top_phrases (pre ++ none :: post) d k =
        extract_top_phrases (pre ++ post) d k) ∧
    (∀ (texts : List (Option String)) (d : List String) (k : Int),
      (∀ s ∈ dropna texts, wordsOf s = []) →
        extract_top_phrases texts d k = []) := by
  refine ⟨?_, ?_, ?_⟩
  · intro d k
    simp [extract_top_phrases, accumulate, dropna, sortByCountDesc]
  · intro pre post d k
    have hdrop : dropna (pre ++ none :: post) = dropna (pre ++ post) := by
      simp [dropna]
    rw [extract_top_phrases, extract_top_phrases, accumulate, accumulate,
      hdrop]
  · intro texts d k h
    have hacc : accumulate d texts = [] := by
      rw [accumulate, foldl_addText_of_tokenless d _ h]
    rw [extract_top_phrases, hacc]
    simp [sortByCountDesc]

theorem claim_c7_witness :
    extract_top_phrases [none, some "", some "   "] neutral_phrases 5 = [] :=
  claim_c7.2.2 _ _ _ (by decide)

/-- C8: the extraction is a pure, deterministic function of its inputs:
equal texts, denylist and top_k yield equal ranked results, and the run
of the script is unaffected by whatever value the counter variable held
before line 176 rebinds it, so a call has no side effects on any other
state and two invocations agree. -/
theorem claim_c8 :
    (∀ (t₁ t₂ : List (Option String)) (d₁ d₂ : List String) (k₁ k₂ : Int),
      t₁ = t₂ → d₁ = d₂ → k₁ = k₂ →
        extract_top_phrases t₁ d₁ k₁ = extract_top_phrases t₂ d₂ k₂) ∧
    (∀ (c₁ c₂ : List (String × Nat)) (texts : List (Option String)),
      scriptRun c₁ texts = scriptRun c₂ texts) ∧
    (∀ (c : List (String × Nat)) (texts : List (Option String)),
      scriptRun c texts = bigram_df texts) := by
  refine ⟨?_, fun c₁ c₂ texts => rfl, fun c texts => rfl⟩
  rintro t₁ t₂ d₁ d₂ k₁ k₂ rfl rfl rfl
  rfl

theorem claim_c8_witness :
    extract_top_phrases [some "late delivery"] neutral_phrases 10 =
      extract_top_phrases [some "late delivery"] neutral_phrases 10 :=
  claim_c8.1 _ _ _ _ _ _ rfl rfl rfl

/-- C9: the upstream inclusion rule is hardcoded: the pipeline result
depends only on the records with service_rating at most 2, and a record
with service_rating strictly greater than 2 contributes nothing
regardless of the content of its feedback. -/
theorem claim_c9 :
    (∀ records : List OrderRecord,
      pipelineFromRecords records =
        pipelineFromRecords
          (records.filter (fun r => decide (r.service_rating ≤ 2)))) ∧
    (∀ (pre post : List OrderRecord) (r : OrderRecord),
      2 < r.service_rating →
        pipelineFromRecords (pre ++ r :: post) =
          pipelineFromRecords (pre ++ post)) := by
  constructor
  · intro records
    rw [pipelineFromRecords, pipelineFromRecords]
    have hfil : negative_df
        (records.filter (fun r => decide (r.service_rating ≤ 2))) =
        negative_df records := by
      rw [negative_df, negative_df, List.filter_filter]
      simp
    rw [hfil]
  · intro pre post r h
    have hr : decide (r.service_rating ≤ 2) = false :=
      decide_eq_false (not_le.mpr h)
    rw [pipelineFromRecords, pipelineFromRecords, negative_df, negative_df,
      List.filter_append, List.filter_append, List.filter_cons, hr]
    simp

theorem claim_c9_witness :
    pipelineFromRecords
        ([⟨1, some "late delivery"⟩] ++ ⟨5, some "nice guys"⟩ :: []) =
      pipelineFromRecords ([⟨1, some "late delivery"⟩] ++ []) :=
  claim_c9.2 [⟨1, some "late delivery"⟩] [] ⟨5, some "nice guys"⟩
    (by norm_num)

/-- C10: deleting (rather than blanking) a removed character merges the
two all-letter words around it into a single token, so a text of the
form a-separator-b tokenizes to the one token a ++ b and forms no
bigram across the punctuation-only boundary. -/
theorem claim_c10 :
    ∀ (a b : String) (c : Char), a.data ≠ [] → b.data ≠ [] →
      (∀ x ∈ a.data, isLetter x = true) →
      (∀ x ∈ b.data, isLetter x = true) →
      keepChar (pyLower c) = false →
      wordsOf (a ++ String.singleton c ++ b) = [a ++ b] ∧
      bigrams (wordsOf (a ++ String.singleton c ++ b)) = [] := by
  intro a b c ha hb hla hlb hc
  have hclean : clean_text (a ++ String.singleton c ++ b) = a ++ b := by
    rw [clean_text_append, clean_text_append, clean_text_singleton_drop hc,
      clean_text_of_letters a hla, clean_text_of_letters b hlb]
    apply String.ext
    simp
  have hsplit : pySplit (a ++ b) = [a ++ b] := by
    apply pySplit_of_letters
    · rw [String.data_append]
      intro h0
      rcases List.append_eq_nil.mp h0 with ⟨h1, _⟩
      exact ha h1
    · rw [String.data_append]
      intro x hx
      rcases List.mem_append.mp hx with hx | hx
      · exact hla x hx
      · exact hlb x hx
  refine ⟨?_, ?_⟩
  · rw [wordsOf, hclean, hsplit]
  · rw [wordsOf, hclean, hsplit]
    rfl

theorem claim_c10_witness :
    wordsOf ("late" ++ String.singleton ',' ++ "delivery") =
      ["late" ++ "delivery"] ∧
    bigrams (wordsOf ("late" ++ String.singleton ',' ++ "delivery")) = [] :=
  claim_c10 "late" "delivery" ',' (by decide) (by decide) (by decide)
    (by decide) (by decide)

end QuickCommerce
